import Mathlib

/-!
Verification of the contour module of `imgbasics` (`imgbasics/contours.py`).

The module is embedded shallowly:

* numpy arrays holding contour data become `NDArray`: a shape together with
  row-major flat rational data, with the two array operations the module
  uses (`squeeze` and two-dimensional column indexing);
* `contour_coords`, `closest_contour` are translated over `ℚ` and return
  `Except String _`, the `.error` cases modelling the `raise` statements of
  the source and the numpy `IndexError` / reduction errors that propagate
  out of it;
* `contour_properties` is translated over `ℝ` (its perimeter is a sum of
  square roots); it is a total function, as the source never raises;
* the selection loop of `closest_contour` records squared distances: the
  source compares `np.hypot` values, and `hypot` is strictly monotone in
  the squared sum, so the first index of the minimum is unchanged while the
  model stays computable over `ℚ`.  The square root is restored by
  `specContourDist`, and the main theorem about `closest_contour` is stated
  in terms of genuine Euclidean distances in `ℝ`.
-/

namespace Imgbasics

/-- Model of a numpy `ndarray` with rational entries: a shape together with
the row-major flat data.  Only the operations used by `contours.py` are
provided. -/
structure NDArray where
  shape : List ℕ
  data : List ℚ
deriving DecidableEq, Repr, Inhabited

/-- `a.squeeze()`: drop every axis of length 1; the flat data is unchanged. -/
def NDArray.squeeze (a : NDArray) : NDArray :=
  { a with shape := a.shape.filter (· ≠ 1) }

/-- `a[:, j]` for a two-dimensional array: column `j`.  On a one-dimensional
array numpy raises `IndexError: too many indices for array`, modelled as an
`.error`; arrays of other ranks do not occur on the code paths modelled
here and are mapped to the same error. -/
def NDArray.col (a : NDArray) (j : ℕ) : Except String (List ℚ) :=
  match a.shape with
  | [n, m] =>
      if j < m then
        .ok ((List.range n).map fun i => a.data.getD (i * m + j) 0)
      else
        .error "index out of bounds"
  | _ => .error "too many indices for array"

/-- `contour_coords(contour, source)` from `imgbasics/contours.py`:
scikit stores rows as (y, x); opencv stores an (npts, 1, 2) array which is
squeezed before its (x, y) columns are read. -/
def contour_coords (contour : NDArray) (source : String) :
    Except String (List ℚ × List ℚ) :=
  if source = "scikit" then
    match contour.col 1, contour.col 0 with
    | .error e, _ => .error e
    | .ok _, .error e => .error e
    | .ok x, .ok y => .ok (x, y)
  else if source = "opencv" then
    match (contour.squeeze).col 0, (contour.squeeze).col 1 with
    | .error e, _ => .error e
    | .ok _, .error e => .error e
    | .ok x, .ok y => .ok (x, y)
  else
    .error (source ++ " not a valid source for contour data.")

/-- `arr.mean()` over an exact division ring: sum divided by length.
(numpy's mean of an empty array is NaN; every theorem below that involves a
mean assumes nonempty data.) -/
def mean {α : Type} [DivisionRing α] (l : List α) : α :=
  l.sum / (l.length : α)

/-- The squared distance of one decoded contour to the position `(x, y)`,
as accumulated in the loop of `closest_contour`: centroid mode compares the
position with the coordinate means, edge mode takes the minimum over the
vertices.  The source stores `np.hypot` values; `hypot` is strictly
monotone in the squared sum, so keeping the squares preserves the selection
below exactly (see `contourDistSq_ok` / `specContourDist`).  The `.error`
models numpy's error on an empty reduction (`min` of a zero-size array). -/
def contourDistSq (edge : Bool) (x y : ℚ) (xcont ycont : List ℚ) :
    Except String ℚ :=
  if edge then
    match (xcont.zip ycont).map (fun v => (v.1 - x) ^ 2 + (v.2 - y) ^ 2) with
    | [] => .error "zero-size array to reduction operation minimum"
    | d :: ds => .ok (ds.foldl min d)
  else
    .ok ((x - mean xcont) ^ 2 + (y - mean ycont) ^ 2)

/-- The body of the loop of `closest_contour`: decode one contour and
compute its (squared) distance to the position. -/
def contourLoopDist (edge : Bool) (x y : ℚ) (source : String)
    (contour : NDArray) : Except String ℚ :=
  match contour_coords contour source with
  | .error e => .error e
  | .ok (xcont, ycont) => contourDistSq edge x y xcont ycont

/-- `closest_contour(contours, position, edge, source)` from
`imgbasics/contours.py`.  The empty collection raises
`ContourError('No Contours Available')`; a singleton is returned at once;
otherwise the distances of all contours are collected in order and
`dists.index(min(dists))` selects the first index attaining the minimum. -/
def closest_contour (contours : List NDArray) (position : ℚ × ℚ)
    (edge : Bool) (source : String) : Except String NDArray :=
  match contours with
  | [] => .error "No Contours Available"
  | [contour] => .ok contour
  | c1 :: c2 :: rest =>
      match (c1 :: c2 :: rest).mapM
          (contourLoopDist edge position.1 position.2 source) with
      | .error e => .error e
      | .ok dists =>
          match dists with
          | [] => .error "No Contours Available"
          | d :: ds =>
              .ok ((c1 :: c2 :: rest).getD
                ((d :: ds).indexOf (ds.foldl min d)) default)

/-- C4: applied to an empty contour collection, `closest_contour` fails with
the `No Contours Available` error, for every position, policy and source
tag. -/
theorem closest_contour_empty_fails (position : ℚ × ℚ) (edge : Bool)
    (source : String) :
    closest_contour [] position edge source = .error "No Contours Available" :=
  rfl

/-- C3: a single-element collection is returned unchanged by
`closest_contour`, for every position, distance policy and source tag: the
early return fires before any coordinate is decoded or any distance is
computed. -/
theorem closest_contour_single (c : NDArray) (position : ℚ × ℚ) (edge : Bool)
    (source : String) :
    closest_contour [c] position edge source = .ok c :=
  rfl

/-- C5: `contour_coords` fails with the invalid-source error on every source
tag other than `scikit` and `opencv`, whatever the contour data. -/
theorem contour_coords_invalid_source (contour : NDArray) (source : String)
    (h1 : source ≠ "scikit") (h2 : source ≠ "opencv") :
    contour_coords contour source =
      .error (source ++ " not a valid source for contour data.") := by
  simp [contour_coords, h1, h2]

/-- Witness for C5 at a concrete array and the concrete tag `numpy`. -/
theorem contour_coords_invalid_source_witness :
    contour_coords ⟨[1, 2], [0, 0]⟩ "numpy" =
      .error ("numpy" ++ " not a valid source for contour data.") :=
  contour_coords_invalid_source ⟨[1, 2], [0, 0]⟩ "numpy"
    (by decide) (by decide)

/-- C9: with a single contour the early return of `closest_contour` fires
before the source tag is ever inspected, so even an invalid tag succeeds
(whatever the contour, degenerate included); with two or more contours the
same invalid tag is rejected by the coordinate adapter on the first loop
iteration. -/
theorem closest_contour_single_skips_validation (position : ℚ × ℚ)
    (edge : Bool) (source : String)
    (h1 : source ≠ "scikit") (h2 : source ≠ "opencv") :
    (∀ c : NDArray, closest_contour [c] position edge source = .ok c) ∧
    (∀ c1 c2 : NDArray, ∀ rest : List NDArray,
      closest_contour (c1 :: c2 :: rest) position edge source =
        .error (source ++ " not a valid source for contour data.")) := by
  refine ⟨fun c => rfl, fun c1 c2 rest => ?_⟩
  have hcc : contour_coords c1 source =
      .error (source ++ " not a valid source for contour data.") := by
    simp [contour_coords, h1, h2]
  have hd : contourLoopDist edge position.1 position.2 source c1 =
      .error (source ++ " not a valid source for contour data.") := by
    simp only [contourLoopDist]
    rw [hcc]
  simp only [closest_contour]
  rw [List.mapM_cons, hd]
  rfl

/-- Witness for C9: the single-element fast path succeeds on the invalid
tag `bogus` even for a degenerate single-point opencv contour, while a
two-element collection with the same tag fails. -/
theorem closest_contour_single_skips_validation_witness :
    closest_contour [⟨[1, 1, 2], [5, 6]⟩] (0, 0) false "bogus" =
      .ok ⟨[1, 1, 2], [5, 6]⟩ ∧
    closest_contour [⟨[2, 2], [1, 2, 3, 4]⟩, ⟨[2, 2], [5, 6, 7, 8]⟩]
        (0, 0) false "bogus" =
      .error ("bogus" ++ " not a valid source for contour data.") :=
  ⟨(closest_contour_single_skips_validation (0, 0) false "bogus"
      (by decide) (by decide)).1 _,
   (closest_contour_single_skips_validation (0, 0) false "bogus"
      (by decide) (by decide)).2 _ _ []⟩

/-! ### The two encodings of a logical point list (claims about the adapter) -/

/-- scikit-image encoding of a list of logical (x, y) points: an (N, 2)
array whose column 0 holds y and whose column 1 holds x. -/
def scikitEncode (pts : List (ℚ × ℚ)) : NDArray :=
  ⟨[pts.length, 2], pts.flatMap fun p => [Prod.snd p, Prod.fst p]⟩

/-- OpenCV encoding of the same logical points: an (N, 1, 2) array whose
trailing axis holds x then y. -/
def opencvEncode (pts : List (ℚ × ℚ)) : NDArray :=
  ⟨[pts.length, 1, 2], pts.flatMap fun p => [Prod.fst p, Prod.snd p]⟩

/-- In a flat list of coordinate pairs, position `2 i` holds the first
component of point `i` and position `2 i + 1` the second. -/
theorem getD_pair_flat (f g : ℚ × ℚ → ℚ) :
    ∀ (l : List (ℚ × ℚ)) (i : ℕ) (hi : i < l.length),
      (l.flatMap fun p => [f p, g p]).getD (2 * i) 0 = f (l.get ⟨i, hi⟩) ∧
      (l.flatMap fun p => [f p, g p]).getD (2 * i + 1) 0 = g (l.get ⟨i, hi⟩) := by
  intro l
  induction l with
  | nil => intro i hi; simp at hi
  | cons p t ih =>
      intro i hi
      cases i with
      | zero => constructor <;> simp
      | succ k =>
          have hk : k < t.length := by simpa using hi
          have hrec := ih k hk
          have e1 : 2 * (k + 1) = 2 * k + 1 + 1 := by ring
          have e2 : 2 * (k + 1) + 1 = 2 * k + 1 + 1 + 1 := by ring
          constructor
          · rw [e1]
            simpa [List.flatMap_cons] using hrec.1
          · rw [e2]
            simpa [List.flatMap_cons] using hrec.2

/-- Reading column `j` of an (N, 2) array produced from a flat pair list
gives the corresponding component of every point. -/
theorem col_pair_flat (f g : ℚ × ℚ → ℚ) (l : List (ℚ × ℚ)) :
    NDArray.col ⟨[l.length, 2], l.flatMap fun p => [f p, g p]⟩ 0 =
      .ok (l.map f) ∧
    NDArray.col ⟨[l.length, 2], l.flatMap fun p => [f p, g p]⟩ 1 =
      .ok (l.map g) := by
  constructor <;>
  · simp only [NDArray.col]
    rw [if_pos (by norm_num)]
    refine congrArg Except.ok (List.ext_get (by simp) ?_)
    intro i h1 h2
    have hi : i < l.length := by simpa using h2
    have hrec := getD_pair_flat f g l i hi
    simp only [List.get_eq_getElem, List.getElem_map, List.getElem_range]
    rw [Nat.mul_comm i 2]
    first
      | simpa [List.get_eq_getElem] using hrec.1
      | simpa [List.get_eq_getElem] using hrec.2

/-- C7 counterexample: for the single logical point (1, 2) the two
conventions do not decode identically — the scikit form succeeds while the
opencv (1, 1, 2) form is squeezed to one dimension and its column indexing
fails. -/
theorem encoding_roundtrip_counterexample :
    contour_coords (scikitEncode [(1, 2)]) "scikit" = .ok ([1], [2]) ∧
    contour_coords (opencvEncode [(1, 2)]) "opencv" =
      .error "too many indices for array" :=
  ⟨rfl, rfl⟩

/-- C7 amended: for every logical point list whose length differs from 1,
decoding the scikit encoding and decoding the opencv encoding yield the
same pair of coordinate sequences, namely the x components and the y
components in true (x, y) order. -/
theorem contour_coords_encodings_agree (pts : List (ℚ × ℚ))
    (h : pts.length ≠ 1) :
    contour_coords (scikitEncode pts) "scikit" =
      .ok (pts.map Prod.fst, pts.map Prod.snd) ∧
    contour_coords (opencvEncode pts) "opencv" =
      .ok (pts.map Prod.fst, pts.map Prod.snd) := by
  constructor
  · simp only [contour_coords, scikitEncode]
    rw [if_pos trivial]
    rw [(col_pair_flat Prod.snd Prod.fst pts).2, (col_pair_flat Prod.snd Prod.fst pts).1]
  · simp only [contour_coords, opencvEncode]
    rw [if_pos trivial]
    have hsq : NDArray.squeeze ⟨[pts.length, 1, 2],
        pts.flatMap fun p => [Prod.fst p, Prod.snd p]⟩ =
        ⟨[pts.length, 2], pts.flatMap fun p => [Prod.fst p, Prod.snd p]⟩ := by
      simp [NDArray.squeeze, List.filter_cons, h]
    rw [hsq]
    rw [(col_pair_flat Prod.fst Prod.snd pts).1, (col_pair_flat Prod.fst Prod.snd pts).2]
    rw [if_neg (by decide)]

/-- Witness for the amended C7 at the two-point list [(1, 2), (3, 4)]. -/
theorem contour_coords_encodings_agree_witness :
    contour_coords (scikitEncode [(1, 2), (3, 4)]) "scikit" =
      .ok ([1, 3], [2, 4]) ∧
    contour_coords (opencvEncode [(1, 2), (3, 4)]) "opencv" =
      .ok ([1, 3], [2, 4]) :=
  contour_coords_encodings_agree [(1, 2), (3, 4)] (by decide)

/-- C10 counterexample: an empty opencv contour — shape (0, 1, 2) — is also
decoded into two equal-length (empty) coordinate sequences, so success is
not restricted to contours of at least two points. -/
theorem opencv_empty_contour_decodes :
    contour_coords ⟨[0, 1, 2], []⟩ "opencv" = .ok ([], []) :=
  rfl

/-- C10 amended: under the opencv convention, an (n, 1, 2) contour decodes
into two length-n coordinate sequences exactly when n ≠ 1; for n = 1 the
squeeze collapses the array to one dimension and the column indexing fails
with the numpy IndexError. -/
theorem contour_coords_opencv_point_count (n : ℕ) (data : List ℚ) :
    (n ≠ 1 → ∃ xs ys : List ℚ,
      contour_coords ⟨[n, 1, 2], data⟩ "opencv" = .ok (xs, ys) ∧
      xs.length = n ∧ ys.length = n) ∧
    (n = 1 → contour_coords ⟨[n, 1, 2], data⟩ "opencv" =
      .error "too many indices for array") := by
  constructor
  · intro hn
    refine ⟨(List.range n).map (fun i => data.getD (i * 2 + 0) 0),
      (List.range n).map (fun i => data.getD (i * 2 + 1) 0), ?_, by simp, by simp⟩
    simp only [contour_coords]
    rw [if_pos trivial]
    have hsq : NDArray.squeeze ⟨[n, 1, 2], data⟩ = ⟨[n, 2], data⟩ := by
      simp [NDArray.squeeze, List.filter_cons, hn]
    rw [hsq]
    simp [NDArray.col]
  · intro hn
    subst hn
    rfl

/-- Witness for the amended C10: a two-point opencv contour decodes into two
length-2 sequences, a one-point one fails. -/
theorem contour_coords_opencv_point_count_witness :
    (∃ xs ys : List ℚ,
      contour_coords ⟨[2, 1, 2], [1, 2, 3, 4]⟩ "opencv" = .ok (xs, ys) ∧
      xs.length = 2 ∧ ys.length = 2) ∧
    contour_coords ⟨[1, 1, 2], [1, 2]⟩ "opencv" =
      .error "too many indices for array" :=
  ⟨(contour_coords_opencv_point_count 2 [1, 2, 3, 4]).1 (by decide),
   (contour_coords_opencv_point_count 1 [1, 2]).2 rfl⟩

/-! ### The geometry engine: `contour_properties` -/

/-- `np.diff`: successive differences of a sequence. -/
def npDiff {α : Type} [Sub α] (l : List α) : List α :=
  List.zipWith (fun a b => b - a) l l.tail

/-- The record returned by `contour_properties`. -/
structure ContourProps where
  centroid : ℝ × ℝ
  perimeter : ℝ
  area : ℝ

/-- `contour_properties(x, y)` from `imgbasics/contours.py`, over exact real
arithmetic.  The source is a straight-line computation with no `raise` and
no zero test, so the model is a total function: a zero area flows into the
centroid division (silently giving NaN/inf under IEEE floats at runtime;
division by zero in `ℝ`, which Mathlib evaluates to 0).  `np.append(x, x[0])`
is modelled as `x ++ x.take 1`; on empty input the source raises
`IndexError`, and no claim concerns empty input. -/
noncomputable def contour_properties (x0 y0 : List ℝ) : ContourProps :=
  let xm := mean x0
  let ym := mean y0
  let x := x0.map (· - xm)
  let y := y0.map (· - ym)
  let x_looped := x ++ x.take 1
  let y_looped := y ++ y.take 1
  let dx := npDiff x_looped
  let dy := npDiff y_looped
  let area := (List.zipWith (· - ·) (List.zipWith (· * ·) y dx)
    (List.zipWith (· * ·) x dy)).sum / 2
  let perimeter := ((dx.zip dy).map fun v => Real.sqrt (v.1 ^ 2 + v.2 ^ 2)).sum
  let Ma := (((x.zip y).zip (dx.zip dy)).map fun v =>
    (v.1.2 * v.2.1 ^ 2 - v.1.1 ^ 2 * v.2.2) / 4 +
      v.1.1 * v.1.2 * v.2.1 / 2 + v.2.1 ^ 2 * v.2.2 / 12).sum
  let Mb := (((x.zip y).zip (dx.zip dy)).map fun v =>
    (v.1.2 ^ 2 * v.2.1 - v.1.1 * v.2.2 ^ 2) / 4 -
      v.1.1 * v.1.2 * v.2.2 / 2 - v.2.2 ^ 2 * v.2.1 / 12).sum
  { centroid := (Ma / area + xm, Mb / area + ym)
    perimeter := perimeter
    area := area }

/-- C2 counterexample: on the all-zero three-point contour the computed area
is 0, yet `contour_properties` does not fail — the source has no error path
at all — and an ordinary record is returned (in the exact model the
zero-divided centroid is (0, 0)). -/
theorem contour_properties_zero_area_value :
    (contour_properties [0, 0, 0] [0, 0, 0]).area = 0 ∧
    (contour_properties [0, 0, 0] [0, 0, 0]).perimeter = 0 ∧
    (contour_properties [0, 0, 0] [0, 0, 0]).centroid = (0, 0) := by
  norm_num [contour_properties, mean, npDiff, List.zipWith, List.zip,
    Real.sqrt_zero]

/-- C2 amended: the centroid computation never fails; whenever the computed
area is zero the moments are divided by that zero area (NaN/inf in floating
point; 0 in the exact model), so the returned centroid degenerates to the
coordinate means. -/
theorem contour_properties_zero_area_centroid (x y : List ℝ)
    (h : (contour_properties x y).area = 0) :
    (contour_properties x y).centroid = (mean x, mean y) := by
  simp only [contour_properties] at h ⊢
  rw [h, div_zero, div_zero, zero_add, zero_add]

/-- Witness for the amended C2 at the all-zero three-point contour. -/
theorem contour_properties_zero_area_centroid_witness :
    (contour_properties [0, 0, 0] [0, 0, 0]).centroid =
      (mean [0, 0, 0], mean [0, 0, 0]) :=
  contour_properties_zero_area_centroid [0, 0, 0] [0, 0, 0]
    (by norm_num [contour_properties, mean, npDiff, List.zipWith])

/-! ### C6: the mean-shift changes neither area nor perimeter -/

/-- The shoelace area computed directly on the untranslated input
coordinates (the spec asserts the initial translation "does not change
perimeter/area"). -/
noncomputable def rawArea (x y : List ℝ) : ℝ :=
  (List.zipWith (· - ·)
    (List.zipWith (· * ·) y (npDiff (x ++ x.take 1)))
    (List.zipWith (· * ·) x (npDiff (y ++ y.take 1)))).sum / 2

/-- The perimeter computed directly on the untranslated input coordinates. -/
noncomputable def rawPerimeter (x y : List ℝ) : ℝ :=
  (((npDiff (x ++ x.take 1)).zip (npDiff (y ++ y.take 1))).map
    fun v => Real.sqrt (v.1 ^ 2 + v.2 ^ 2)).sum

theorem tail_map_sub (c : ℝ) (l : List ℝ) :
    (l.map (· - c)).tail = l.tail.map (· - c) := by
  cases l <;> simp

theorem zipWith_sub_map_sub (c : ℝ) :
    ∀ (l m : List ℝ),
      List.zipWith (fun a b => b - a) (l.map (· - c)) (m.map (· - c)) =
        List.zipWith (fun a b => b - a) l m := by
  intro l
  induction l with
  | nil => intro m; simp
  | cons a t ih =>
      intro m
      cases m with
      | nil => simp
      | cons b s => simp [ih s]

theorem npDiff_map_sub (c : ℝ) (l : List ℝ) :
    npDiff (l.map (· - c)) = npDiff l := by
  rw [npDiff, npDiff, tail_map_sub, zipWith_sub_map_sub]

theorem looped_map_sub (c : ℝ) (l : List ℝ) :
    (l.map (· - c)) ++ (l.map (· - c)).take 1 =
      (l ++ l.take 1).map (· - c) := by
  rw [List.map_append]
  cases l <;> simp

theorem sum_zipWith_sub :
    ∀ (a b : List ℝ), a.length = b.length →
      (List.zipWith (· - ·) a b).sum = a.sum - b.sum := by
  intro a
  induction a with
  | nil =>
      intro b hb
      obtain rfl : b = [] := List.length_eq_zero.mp hb.symm
      simp
  | cons u ta ih =>
      intro b hb
      cases b with
      | nil => simp at hb
      | cons v tb =>
          have : ta.length = tb.length := by simpa using hb
          simp [ih tb this]
          ring

theorem sum_zipWith_mul_map_sub (c : ℝ) :
    ∀ (l m : List ℝ), l.length = m.length →
      (List.zipWith (· * ·) (l.map (· - c)) m).sum =
        (List.zipWith (· * ·) l m).sum - c * m.sum := by
  intro l
  induction l with
  | nil =>
      intro m hm
      obtain rfl : m = [] := List.length_eq_zero.mp hm.symm
      simp
  | cons a t ih =>
      intro m hm
      cases m with
      | nil => simp at hm
      | cons b s =>
          have : t.length = s.length := by simpa using hm
          simp [ih s this]
          ring

theorem sum_npDiff_tele :
    ∀ (t : List ℝ) (a z : ℝ), (npDiff (a :: (t ++ [z]))).sum = z - a := by
  intro t
  induction t with
  | nil => intro a z; simp [npDiff]
  | cons b s ih =>
      intro a z
      have step : npDiff (a :: b :: (s ++ [z])) =
          (b - a) :: npDiff (b :: (s ++ [z])) := by
        simp [npDiff]
      rw [List.cons_append, step, List.sum_cons, ih b z]
      ring

theorem sum_npDiff_looped (a : ℝ) (t : List ℝ) :
    (npDiff ((a :: t) ++ (a :: t).take 1)).sum = 0 := by
  have : (a :: t) ++ (a :: t).take 1 = a :: (t ++ [a]) := by simp
  rw [this, sum_npDiff_tele]
  ring

theorem length_npDiff (l : List ℝ) : (npDiff l).length = l.length - 1 := by
  simp [npDiff]

/-- C6: for equal-length coordinate sequences of length at least 3, the
signed area and the perimeter computed by `contour_properties` (which first
shifts both sequences by their means) coincide with the shoelace area and
perimeter computed directly on the untranslated input. -/
theorem contour_properties_translation_invariant (x y : List ℝ)
    (hlen : x.length = y.length) (h3 : 3 ≤ x.length) :
    (contour_properties x y).area = rawArea x y ∧
    (contour_properties x y).perimeter = rawPerimeter x y := by
  obtain ⟨a, t, rfl⟩ : ∃ a t, x = a :: t := by
    cases x with
    | nil => simp at h3
    | cons a t => exact ⟨a, t, rfl⟩
  obtain ⟨b, s, rfl⟩ : ∃ b s, y = b :: s := by
    cases y with
    | nil => simp at hlen
    | cons b s => exact ⟨b, s, rfl⟩
  simp only [contour_properties, rawArea, rawPerimeter]
  rw [looped_map_sub, looped_map_sub, npDiff_map_sub, npDiff_map_sub]
  refine ⟨?_, rfl⟩
  have hdxlen : (npDiff ((a :: t) ++ (a :: t).take 1)).length =
      (a :: t).length := by
    rw [length_npDiff]
    simp
  have hdylen : (npDiff ((b :: s) ++ (b :: s).take 1)).length =
      (b :: s).length := by
    rw [length_npDiff]
    simp
  have hylen2 : (b :: s).length = (npDiff ((a :: t) ++ (a :: t).take 1)).length := by
    rw [hdxlen, hlen]
  have hxlen2 : (a :: t).length = (npDiff ((b :: s) ++ (b :: s).take 1)).length := by
    rw [hdylen, hlen]
  rw [sum_zipWith_sub _ _ (by
    simp only [List.length_zipWith, List.length_map]
    omega),
    sum_zipWith_sub _ _ (by
    simp only [List.length_zipWith]
    omega)]
  rw [sum_zipWith_mul_map_sub _ _ _ hylen2,
    sum_zipWith_mul_map_sub _ _ _ hxlen2]
  rw [sum_npDiff_looped, sum_npDiff_looped]
  ring

/-- Witness for C6 at the triangle (0,0), (1,0), (0,1). -/
theorem contour_properties_translation_invariant_witness :
    (contour_properties [0, 1, 0] [0, 0, 1]).area = rawArea [0, 1, 0] [0, 0, 1] ∧
    (contour_properties [0, 1, 0] [0, 0, 1]).perimeter =
      rawPerimeter [0, 1, 0] [0, 0, 1] :=
  contour_properties_translation_invariant [0, 1, 0] [0, 0, 1]
    (by simp) (by simp)

/-! ### C8: the reference hexagon -/

/-- The side parameter of the reference hexagon, l = 1/sqrt 3. -/
noncomputable def hexL : ℝ := 1 / Real.sqrt 3

/-- x coordinates (1, 1, 0, -1, -1, 0) / 2 of the reference hexagon. -/
noncomputable def hexX : List ℝ := [1 / 2, 1 / 2, 0, -(1 / 2), -(1 / 2), 0]

/-- y coordinates (-l, l, 2l, l, -l, -2l) / 2 of the reference hexagon. -/
noncomputable def hexY : List ℝ :=
  [-hexL / 2, hexL / 2, hexL, hexL / 2, -hexL / 2, -hexL]

theorem hexX_mean : mean hexX = 0 := by
  norm_num [mean, hexX]

theorem hexY_mean : mean hexY = 0 := by
  simp [mean, hexY]
  ring

theorem hexagon_centroid : (contour_properties hexX hexY).centroid = (0, 0) := by
  simp only [contour_properties]
  rw [hexX_mean, hexY_mean]
  simp only [sub_zero, List.map_id]
  simp [hexX, hexY, npDiff, Prod.ext_iff]
  constructor <;>
  · left
    ring

theorem hexagon_perimeter :
    (contour_properties hexX hexY).perimeter = 2 * Real.sqrt 3 := by
  have hs2 : Real.sqrt 3 ^ 2 = 3 := Real.sq_sqrt (by norm_num)
  have hl2 : hexL ^ 2 = 1 / 3 := by
    rw [hexL, div_pow, hs2]
    norm_num
  have h13 : Real.sqrt (1 / 3) = Real.sqrt 3 / 3 := by
    rw [show (1 / 3 : ℝ) = (Real.sqrt 3 / 3) ^ 2 by rw [div_pow, hs2]; norm_num]
    exact Real.sqrt_sq (by positivity)
  simp only [contour_properties]
  rw [hexX_mean, hexY_mean]
  simp only [sub_zero, List.map_id]
  simp [hexX, hexY, npDiff]
  ring_nf
  rw [hl2]
  norm_num [h13]
  ring

theorem hexagon_area :
    (contour_properties hexX hexY).area = -(Real.sqrt 3) / 2 := by
  have hs2 : Real.sqrt 3 ^ 2 = 3 := Real.sq_sqrt (by norm_num)
  simp only [contour_properties]
  rw [hexX_mean, hexY_mean]
  simp only [sub_zero, List.map_id]
  simp [hexX, hexY, npDiff]
  ring_nf
  rw [hexL]
  field_simp
  linear_combination (-2 : ℝ) * hs2

/-- C8: on the reference hexagon (x = (1,1,0,-1,-1,0)/2,
y = (-l,l,2l,l,-l,-2l)/2 with l = 1/sqrt 3), `contour_properties` returns
centroid (0, 0) within 1e-6, perimeter within 1e-4 of 3.4641, and area
within 1e-4 of -0.8660 (the sign encoding the traversal orientation in
image-pixel coordinates). -/
theorem contour_properties_hexagon :
    |(contour_properties hexX hexY).centroid.1| ≤ 1 / 1000000 ∧
    |(contour_properties hexX hexY).centroid.2| ≤ 1 / 1000000 ∧
    |(contour_properties hexX hexY).perimeter - 3.4641| ≤ 1 / 10000 ∧
    |(contour_properties hexX hexY).area - (-0.8660)| ≤ 1 / 10000 := by
  have hlow : (1.7320 : ℝ) ≤ Real.sqrt 3 :=
    (Real.le_sqrt (by norm_num) (by norm_num)).mpr (by norm_num)
  have hhigh : Real.sqrt 3 < 1.7321 :=
    (Real.sqrt_lt' (by norm_num)).mpr (by norm_num)
  refine ⟨by rw [hexagon_centroid]; norm_num, by rw [hexagon_centroid]; norm_num,
    ?_, ?_⟩
  · rw [hexagon_perimeter, abs_le]
    constructor <;> linarith [hlow, hhigh]
  · rw [hexagon_area, abs_le]
    constructor <;> linarith [hlow, hhigh]

/-! ### C1: the selection of `closest_contour` minimises Euclidean distance -/

/-- Euclidean distance between two rational points, in `ℝ`. -/
noncomputable def euclid (p q : ℚ × ℚ) : ℝ :=
  Real.sqrt (((p.1 - q.1 : ℚ) : ℝ) ^ 2 + ((p.2 - q.2 : ℚ) : ℝ) ^ 2)

/-- The distance of a decoded contour to the reference position as the spec
words it: under the centroid policy the Euclidean distance from the
position to the arithmetic means of the coordinates, under the edge policy
the minimum over the vertices of the vertex-to-position Euclidean
distance. -/
noncomputable def specContourDist (edge : Bool) (pos : ℚ × ℚ)
    (xc yc : List ℚ) : ℝ :=
  if edge then
    match (xc.zip yc).map (fun v => euclid pos v) with
    | [] => 0
    | r :: rs => rs.foldl min r
  else euclid pos (mean xc, mean yc)

/-- The spec distance of a raw contour: decode, then measure.  (Contours
that fail to decode are given the dummy distance 0; every theorem using
this assumes decoding succeeds.) -/
noncomputable def contourRealDist (edge : Bool) (pos : ℚ × ℚ)
    (source : String) (c : NDArray) : ℝ :=
  match contour_coords c source with
  | .ok (xc, yc) => specContourDist edge pos xc yc
  | .error _ => 0

theorem foldl_min_le_init {α : Type} [LinearOrder α] :
    ∀ (l : List α) (a : α), l.foldl min a ≤ a := by
  intro l
  induction l with
  | nil => intro a; simp
  | cons b t ih =>
      intro a
      exact le_trans (ih (min a b)) (min_le_left a b)

theorem foldl_min_le_mem {α : Type} [LinearOrder α] :
    ∀ (l : List α) (a x : α), x ∈ l → l.foldl min a ≤ x := by
  intro l
  induction l with
  | nil => intro a x hx; simp at hx
  | cons b t ih =>
      intro a x hx
      rcases List.mem_cons.mp hx with h | h
      · subst h
        exact le_trans (foldl_min_le_init t (min a x)) (min_le_right a x)
      · exact ih (min a b) x h

theorem foldl_min_mem {α : Type} [LinearOrder α] :
    ∀ (l : List α) (a : α), l.foldl min a = a ∨ l.foldl min a ∈ l := by
  intro l
  induction l with
  | nil => intro a; exact Or.inl rfl
  | cons b t ih =>
      intro a
      rcases ih (min a b) with h | h
      · rcases min_choice a b with hab | hab
        · exact Or.inl (by rw [List.foldl_cons, h, hab])
        · exact Or.inr (by rw [List.foldl_cons, h, hab]; exact List.mem_cons_self b t)
      · exact Or.inr (List.mem_cons_of_mem b h)

theorem foldl_min_map_mono (g : ℚ → ℝ) (hg : Monotone g) :
    ∀ (l : List ℚ) (a : ℚ), (l.map g).foldl min (g a) = g (l.foldl min a) := by
  intro l
  induction l with
  | nil => intro a; rfl
  | cons b t ih =>
      intro a
      simp only [List.map_cons, List.foldl_cons]
      rw [← hg.map_min, ih]

theorem get_ne_of_lt_indexOf {α : Type} [DecidableEq α] :
    ∀ (l : List α) (a : α) (j : ℕ) (hj : j < l.length),
      j < l.indexOf a → l.get ⟨j, hj⟩ ≠ a := by
  intro l
  induction l with
  | nil => intro a j hj; simp at hj
  | cons b t ih =>
      intro a j hj hlt
      by_cases hba : b = a
      · subst hba
        rw [List.indexOf_cons_self] at hlt
        exact absurd hlt (Nat.not_lt_zero j)
      · rw [List.indexOf_cons_ne t hba] at hlt
        cases j with
        | zero => simpa using hba
        | succ k =>
            have hk : k < t.length := by simpa using hj
            have : k < t.indexOf a := Nat.succ_lt_succ_iff.mp hlt
            simpa using ih a k hk this

theorem mapM_ok_frame {f : NDArray → Except String ℚ} :
    ∀ l : List NDArray, (∀ c ∈ l, ∃ q, f c = .ok q) →
      ∃ dq : List ℚ, l.mapM f = .ok dq ∧
        List.Forall₂ (fun c q => f c = .ok q) l dq := by
  intro l
  induction l with
  | nil => intro _; exact ⟨[], rfl, List.Forall₂.nil⟩
  | cons a t ih =>
      intro h
      obtain ⟨qa, hqa⟩ := h a (by simp)
      obtain ⟨dq, hdq, hfa⟩ := ih fun c hc => h c (by simp [hc])
      refine ⟨qa :: dq, ?_, List.Forall₂.cons hqa hfa⟩
      rw [List.mapM_cons, hqa, hdq]
      rfl

/-- A nonempty vertex list always has a (squared) loop distance. -/
theorem contourDistSq_ok (edge : Bool) (x y : ℚ) (xc yc : List ℚ)
    (hzip : xc.zip yc ≠ []) :
    ∃ q, contourDistSq edge x y xc yc = .ok q := by
  rcases edge with _ | _
  · exact ⟨_, rfl⟩
  · obtain ⟨z, zr, hzs⟩ : ∃ z zr, xc.zip yc = z :: zr := by
      cases hz : xc.zip yc with
      | nil => exact absurd hz hzip
      | cons z zr => exact ⟨z, zr, rfl⟩
    refine ⟨(zr.map fun v => (v.1 - x) ^ 2 + (v.2 - y) ^ 2).foldl min
      ((z.1 - x) ^ 2 + (z.2 - y) ^ 2), ?_⟩
    rw [contourDistSq, if_pos rfl, hzs, List.map_cons]

/-- The loop's squared distance is nonnegative and its square root is
exactly the spec's Euclidean distance of the decoded contour. -/
theorem contourDistSq_spec (edge : Bool) (x y : ℚ) (xc yc : List ℚ) (q : ℚ)
    (h : contourDistSq edge x y xc yc = .ok q) :
    0 ≤ q ∧ specContourDist edge (x, y) xc yc = Real.sqrt (q : ℝ) := by
  have heuc : ∀ v : ℚ × ℚ, euclid (x, y) v =
      Real.sqrt ((((v.1 - x) ^ 2 + (v.2 - y) ^ 2 : ℚ)) : ℝ) := by
    intro v
    rw [euclid]
    congr 1
    push_cast
    ring
  have hg : Monotone fun q : ℚ => Real.sqrt (q : ℝ) := by
    intro a b hab
    exact Real.sqrt_le_sqrt (by exact_mod_cast hab)
  rcases edge with _ | _
  · obtain rfl : (x - mean xc) ^ 2 + (y - mean yc) ^ 2 = q := by
      simpa [contourDistSq] using h
    refine ⟨by positivity, ?_⟩
    have hspec : specContourDist false (x, y) xc yc =
        euclid (x, y) (mean xc, mean yc) := rfl
    rw [hspec, heuc (mean xc, mean yc)]
    congr 1
    push_cast
    ring
  · cases hzs : xc.zip yc with
    | nil =>
        rw [contourDistSq, if_pos rfl, hzs] at h
        simp at h
    | cons z zr =>
        rw [contourDistSq, if_pos rfl, hzs, List.map_cons] at h
        obtain rfl : (zr.map fun v => (v.1 - x) ^ 2 + (v.2 - y) ^ 2).foldl min
            ((z.1 - x) ^ 2 + (z.2 - y) ^ 2) = q := by
          simpa using h
        constructor
        · rcases foldl_min_mem (zr.map fun v => (v.1 - x) ^ 2 + (v.2 - y) ^ 2)
              ((z.1 - x) ^ 2 + (z.2 - y) ^ 2) with hm | hm
          · rw [hm]; positivity
          · obtain ⟨v, _, hv⟩ := List.mem_map.mp hm
            rw [← hv]; positivity
        · have hform : specContourDist true (x, y) xc yc =
              (zr.map fun v => euclid (x, y) v).foldl min (euclid (x, y) z) := by
            rw [specContourDist, if_pos rfl, hzs, List.map_cons]
          have hmm : (zr.map fun v => euclid (x, y) v) =
              (zr.map fun v => (v.1 - x) ^ 2 + (v.2 - y) ^ 2).map
                fun q : ℚ => Real.sqrt (q : ℝ) := by
            rw [List.map_map]
            exact List.map_congr_left fun v _ => heuc v
          rw [hform, heuc z, hmm, foldl_min_map_mono _ hg]

/-- C1: on a collection of at least two decodable contours (each with at
least one vertex), `closest_contour` succeeds and returns the contour at
the lowest index attaining the minimum distance to the position, where the
distance of a contour is the spec's Euclidean distance (`contourRealDist`):
distance to the coordinate means under the centroid policy, minimum
vertex-to-position distance under the edge policy.  Ties are broken in
favour of the lowest index: every strictly smaller index has strictly
larger distance. -/
theorem closest_contour_min_dist (contours : List NDArray) (pos : ℚ × ℚ)
    (edge : Bool) (source : String)
    (hn2 : 2 ≤ contours.length)
    (hdec : ∀ c ∈ contours, ∃ xc yc,
      contour_coords c source = .ok (xc, yc) ∧ xc.zip yc ≠ []) :
    ∃ i, ∃ hi : i < contours.length,
      closest_contour contours pos edge source = .ok (contours.get ⟨i, hi⟩) ∧
      (∀ j, ∀ hj : j < contours.length,
        contourRealDist edge pos source (contours.get ⟨i, hi⟩) ≤
          contourRealDist edge pos source (contours.get ⟨j, hj⟩)) ∧
      (∀ j, ∀ hj : j < contours.length, j < i →
        contourRealDist edge pos source (contours.get ⟨i, hi⟩) <
          contourRealDist edge pos source (contours.get ⟨j, hj⟩)) := by
  obtain ⟨c1, rest1, rfl⟩ : ∃ c1 r, contours = c1 :: r := by
    cases contours with
    | nil => norm_num at hn2
    | cons a t => exact ⟨a, t, rfl⟩
  obtain ⟨c2, rest, rfl⟩ : ∃ c2 r, rest1 = c2 :: r := by
    cases rest1 with
    | nil => norm_num at hn2
    | cons b t => exact ⟨b, t, rfl⟩
  have hfok : ∀ c ∈ c1 :: c2 :: rest, ∃ q : ℚ,
      contourLoopDist edge pos.1 pos.2 source c = .ok q ∧ 0 ≤ q ∧
      contourRealDist edge pos source c = Real.sqrt (q : ℝ) := by
    intro c hc
    obtain ⟨xc, yc, hok, hzip⟩ := hdec c hc
    obtain ⟨q, hq⟩ := contourDistSq_ok edge pos.1 pos.2 xc yc hzip
    obtain ⟨hq0, hqs⟩ := contourDistSq_spec edge pos.1 pos.2 xc yc q hq
    rw [Prod.mk.eta] at hqs
    refine ⟨q, ?_, hq0, ?_⟩
    · rw [contourLoopDist, hok]
      exact hq
    · rw [contourRealDist, hok]
      exact hqs
  obtain ⟨dq, hdq, hfa⟩ := mapM_ok_frame (c1 :: c2 :: rest)
    fun c hc => ⟨(hfok c hc).choose, (hfok c hc).choose_spec.1⟩
  have hlen : (c1 :: c2 :: rest).length = dq.length := List.Forall₂.length_eq hfa
  obtain ⟨d, ds, rfl⟩ : ∃ d ds, dq = d :: ds := by
    cases dq with
    | nil => simp at hlen
    | cons d ds => exact ⟨d, ds, rfl⟩
  have hpoint := (List.forall₂_iff_get.mp hfa).2
  have hdist : ∀ (j : ℕ) (ha : j < (c1 :: c2 :: rest).length)
      (hb : j < (d :: ds).length),
      0 ≤ (d :: ds).get ⟨j, hb⟩ ∧
      contourRealDist edge pos source ((c1 :: c2 :: rest).get ⟨j, ha⟩) =
        Real.sqrt (((d :: ds).get ⟨j, hb⟩ : ℚ) : ℝ) := by
    intro j ha hb
    obtain ⟨q, hfq, hq0, hreal⟩ := hfok _ (List.get_mem _ j ha)
    have heq := hpoint j ha hb
    rw [hfq] at heq
    injection heq with heq
    rw [heq] at hq0 hreal
    exact ⟨hq0, hreal⟩
  have hm_mem : ds.foldl min d ∈ d :: ds := by
    rcases foldl_min_mem ds d with h | h
    · rw [h]
      exact List.mem_cons_self d ds
    · exact List.mem_cons_of_mem d h
  have hi2 : (d :: ds).indexOf (ds.foldl min d) < (d :: ds).length :=
    List.indexOf_lt_length.mpr hm_mem
  have hi1 : (d :: ds).indexOf (ds.foldl min d) < (c1 :: c2 :: rest).length := by
    rw [hlen]
    exact hi2
  have hgetmin : (d :: ds).get ⟨(d :: ds).indexOf (ds.foldl min d), hi2⟩ =
      ds.foldl min d := List.indexOf_get hi2
  have hle_all : ∀ x ∈ d :: ds, ds.foldl min d ≤ x := by
    intro x hx
    rcases List.mem_cons.mp hx with h | h
    · subst h
      exact foldl_min_le_init ds x
    · exact foldl_min_le_mem ds d x h
  have hcc : closest_contour (c1 :: c2 :: rest) pos edge source =
      .ok ((c1 :: c2 :: rest).get
        ⟨(d :: ds).indexOf (ds.foldl min d), hi1⟩) := by
    simp only [closest_contour]
    rw [hdq]
    show Except.ok ((c1 :: c2 :: rest).getD
        ((d :: ds).indexOf (ds.foldl min d)) default) = _
    rw [List.getD_eq_getElem _ _ hi1, List.get_eq_getElem]
  refine ⟨(d :: ds).indexOf (ds.foldl min d), hi1, hcc, ?_, ?_⟩
  · intro j hj
    have hj2 : j < (d :: ds).length := by
      rw [← hlen]
      exact hj
    obtain ⟨hq0j, hrj⟩ := hdist j hj hj2
    obtain ⟨hq0i, hri⟩ := hdist _ hi1 hi2
    rw [hri, hrj, hgetmin]
    exact Real.sqrt_le_sqrt
      (by exact_mod_cast hle_all _ (List.get_mem _ j hj2))
  · intro j hj hji
    have hj2 : j < (d :: ds).length := by
      rw [← hlen]
      exact hj
    obtain ⟨hq0j, hrj⟩ := hdist j hj hj2
    obtain ⟨hq0i, hri⟩ := hdist _ hi1 hi2
    rw [hri, hrj, hgetmin]
    have hne : (d :: ds).get ⟨j, hj2⟩ ≠ ds.foldl min d :=
      get_ne_of_lt_indexOf (d :: ds) (ds.foldl min d) j hj2 hji
    have hlt : ds.foldl min d < (d :: ds).get ⟨j, hj2⟩ :=
      lt_of_le_of_ne (hle_all _ (List.get_mem _ j hj2)) (Ne.symm hne)
    have h0m : (0 : ℚ) ≤ ds.foldl min d := hgetmin ▸ hq0i
    apply Real.sqrt_lt_sqrt
    · exact_mod_cast h0m
    · exact_mod_cast hlt

/-- Witness for C1: two scikit contours, the single point (3, 0) and the
single point (1, 0), with the position at the origin; the second is closer
under the centroid policy. -/
theorem closest_contour_min_dist_witness :
    ∃ i, ∃ hi : i <
        ([⟨[1, 2], [0, 3]⟩, ⟨[1, 2], [0, 1]⟩] : List NDArray).length,
      closest_contour [⟨[1, 2], [0, 3]⟩, ⟨[1, 2], [0, 1]⟩] (0, 0) false
          "scikit" =
        .ok (([⟨[1, 2], [0, 3]⟩, ⟨[1, 2], [0, 1]⟩] : List NDArray).get
          ⟨i, hi⟩) ∧
      (∀ j, ∀ hj : j <
          ([⟨[1, 2], [0, 3]⟩, ⟨[1, 2], [0, 1]⟩] : List NDArray).length,
        contourRealDist false (0, 0) "scikit"
            (([⟨[1, 2], [0, 3]⟩, ⟨[1, 2], [0, 1]⟩] : List NDArray).get
              ⟨i, hi⟩) ≤
          contourRealDist false (0, 0) "scikit"
            (([⟨[1, 2], [0, 3]⟩, ⟨[1, 2], [0, 1]⟩] : List NDArray).get
              ⟨j, hj⟩)) ∧
      (∀ j, ∀ hj : j <
          ([⟨[1, 2], [0, 3]⟩, ⟨[1, 2], [0, 1]⟩] : List NDArray).length,
        j < i →
        contourRealDist false (0, 0) "scikit"
            (([⟨[1, 2], [0, 3]⟩, ⟨[1, 2], [0, 1]⟩] : List NDArray).get
              ⟨i, hi⟩) <
          contourRealDist false (0, 0) "scikit"
            (([⟨[1, 2], [0, 3]⟩, ⟨[1, 2], [0, 1]⟩] : List NDArray).get
              ⟨j, hj⟩)) :=
  closest_contour_min_dist [⟨[1, 2], [0, 3]⟩, ⟨[1, 2], [0, 1]⟩] (0, 0)
    false "scikit" (by norm_num)
    (by
      intro c hc
      rcases List.mem_cons.mp hc with h | h
      · exact ⟨[3], [0], by subst h; rfl, by decide⟩
      · rcases List.mem_cons.mp h with h | h
        · exact ⟨[1], [0], by subst h; rfl, by decide⟩
        · simp at h)

end Imgbasics
